import Mathlib

/-!
Shallow embedding of the BERelaxFit pipeline from
pycroscopy/analysis/be_relax_fit.py: the read/write step partition built in
the constructor, the mixed-signal reconstruction of a data chunk, the model
dispatch, and the chunked result-store commit with its double-exponential
canonicalization pass.
-/

/-- A Python value used for the starts_with flag.  The constructor documents
starts_with as the integer 1 or 0 but defaults it to the string 'write' and
branches on the strings 'write' and 'read'; the chunk reader branches on the
integers 1 and 0.  Both live values are embedded so that the string-versus-
integer comparisons of the source can be stated faithfully (in Python a
string never equals an integer, matching constructor inequality here). -/
inductive PyVal where
  | pstr : String → PyVal
  | pint : Nat → PyVal
deriving DecidableEq

/-- Block sizes of numpy array_split of an n-element array into C sections:
the first n mod C sections have size n / C + 1, the rest n / C. -/
def arraySplitSizes (n C : Nat) : List Nat :=
  (List.range C).map (fun i => if i < n % C then n / C + 1 else n / C)

/-- Consecutive runs of natural numbers beginning at a given start, with the
given sizes: the slices of arange that array_split returns. -/
def blocksFromSizes (start : Nat) : List Nat → List (List Nat)
  | [] => []
  | s :: rest => (List.range s).map (· + start) :: blocksFromSizes (start + s) rest

/-- self.all_inds_split = np.array_split(np.arange(0, num_steps), no_rs_spectra)
(line 48 of be_relax_fit.py). -/
def all_inds_split (num_steps no_rs_spectra : Nat) : List (List Nat) :=
  blocksFromSizes 0 (arraySplitSizes num_steps no_rs_spectra)

/-- The Python slice b[:-W] on a list: empty when W = 0 (since b[:0] is
empty), otherwise all but the last W elements. -/
def pyNegSlice (b : List Nat) (W : Nat) : List Nat :=
  if W = 0 then [] else b.take (b.length - W)

/-- np.setxor1d on two flat arrays: the sorted, duplicate-free symmetric
difference of the two argument arrays (elements present in exactly one of
them).  The conversion of each argument from a list of per-cycle arrays to
a flat array is np.asanyarray inside np.unique and is modelled separately
by npAsArray, since it fails on ragged input. -/
def setxor1d (a b : List Nat) : List Nat :=
  List.insertionSort (· ≤ ·)
    ((a.filter (fun x => decide (x ∉ b)) ++ b.filter (fun x => decide (x ∉ a))).dedup)

/-- Helper for np.split: peel off a given number of chunks of size k. -/
def npSplitGo : Nat → Nat → List Nat → List (List Nat)
  | 0, _, _ => []
  | c + 1, k, l => l.take k :: npSplitGo c k (l.drop k)

/-- np.split(l, C): C equal sections when C is positive and divides the
length, otherwise a ValueError (modelled as none). -/
def npSplit (l : List Nat) (C : Nat) : Option (List (List Nat)) :=
  if 0 < C ∧ l.length % C = 0 then some (npSplitGo C (l.length / C) l) else none

/-- The array conversion np.asanyarray performed by np.unique inside
np.setxor1d when it is handed a Python list of index arrays: a list whose
arrays all share one length becomes a 2-D array that unique then flattens,
while a ragged list (arrays of unequal length) raises a ValueError
(modelled as none); it never concatenates unequal-length arrays. -/
def npAsArray (ls : List (List Nat)) : Option (List Nat) :=
  if ∀ l ∈ ls, l.length = (ls.headD []).length then some ls.flatten else none

/-- The per-cycle read and write index sets computed at construction. -/
structure CycleIndexPartition where
  read_inds_split : List (List Nat)
  write_inds_split : List (List Nat)
deriving DecidableEq

/-- Python exceptions the embedded code can surface.  valueError models
numpy's ValueError: raised by np.unique/np.setxor1d on a ragged list of
arrays, by np.array_split with zero sections, and by np.split when the
length does not divide evenly.  nameError models the NameError raised in
_map_function when every guard falls through and popt is unbound at the
return.  unsupportedModelError and configurationError appear nowhere in
the code and are present only so the spec's claimed error taxonomy can be
stated. -/
inductive PyError where
  | nameError
  | unsupportedModelError
  | valueError
  | configurationError
deriving DecidableEq

deriving instance DecidableEq for Except

/-- The partition computation of BERelaxFit.__init__ (lines 44-71), with
the Python exception identity kept: all_inds_split =
array_split(arange(num_steps), no_rs_spectra); when starts_with is the
string 'write' each cycle's read indices are its block with the first
no_write_steps dropped, when it is the string 'read' they are the block
sliced by [:-no_write_steps], and for any other value the read list stays
empty; the write indices are np.split(np.setxor1d(all_inds_split,
read_inds_split), no_rs_spectra), where setxor1d first converts each list
of arrays via np.asanyarray — a ragged block list (uneven num_steps)
raises ValueError there.  array_split with zero sections and np.split of
a non-divisible length also raise ValueError. -/
def mkPartitionE (num_steps no_rs_spectra no_write_steps : Nat) (starts_with : PyVal) :
    Except PyError CycleIndexPartition :=
  if no_rs_spectra = 0 then .error .valueError
  else
    let blocks := all_inds_split num_steps no_rs_spectra
    let reads :=
      if starts_with = .pstr "write" then blocks.map (List.drop no_write_steps)
      else if starts_with = .pstr "read" then
        blocks.map (fun b => pyNegSlice b no_write_steps)
      else []
    match npAsArray blocks, npAsArray reads with
    | some fa, some fb =>
      match npSplit (setxor1d fa fb) no_rs_spectra with
      | none => .error .valueError
      | some ws => .ok ⟨reads, ws⟩
    | _, _ => .error .valueError

/-- The partition a successful construction leaves on the instance: the
same computation with the exception identity forgotten. -/
def mkPartition (num_steps no_rs_spectra no_write_steps : Nat) (starts_with : PyVal) :
    Option CycleIndexPartition :=
  (mkPartitionE num_steps no_rs_spectra no_write_steps starts_with).toOption

/-- Read-branch mixed signal of one pixel for one cycle's index list
(lines 100-103): amplitude times sensitivity times cos(phase + offset) at
each read index.  The pixel's raw rows are viewed as step-indexed
functions. -/
noncomputable def mixedReadSignal (amp phase : Nat → ℝ) (inds : List Nat) (sens off : ℝ) : List ℝ :=
  inds.map (fun k => amp k * sens * Real.cos (phase k + off))

/-- Write-branch mixed signal of one pixel (lines 104-114): the source
guards the two branches with starts_with == 1 and starts_with == 0; the
first takes the first no_write_steps raw steps, the second the raw steps
from no_read_steps on, and when neither guard holds the accumulator
mixed_signal_write keeps its initial empty value. -/
noncomputable def mixedWriteSignal (starts_with : PyVal) (num_steps no_write_steps no_read_steps : Nat)
    (amp phase : Nat → ℝ) (sens off : ℝ) : List ℝ :=
  if starts_with = .pint 1 then
    ((List.range num_steps).take no_write_steps).map
      (fun k => amp k * sens * Real.cos (phase k + off))
  else if starts_with = .pint 0 then
    ((List.range num_steps).drop no_read_steps).map
      (fun k => amp k * sens * Real.cos (phase k + off))
  else []

/-- The per-model field-name table of _create_results_datasets
(lines 147-171); an unrecognized fit_method leaves field_names unbound
(none). -/
def fieldNamesCreate (fit_method : String) : Option (List String) :=
  if fit_method = "Exponential" then
    some ["Amplitude [pm]", "Time_Constant [s]", "Offset [pm]"]
  else if fit_method = "Double_Exp" then
    some ["Amplitude [pm]", "Time_Constant [s]",
          "Amplitude 2 [pm]", "Time_Constant 2 [s]", "Offset [pm]"]
  else if fit_method = "Str_Exp" then
    some ["Amplitude [pm]", "Beta", "Offset [pm]"]
  else if fit_method = "Logistic" then
    some ["A", "K", "B", "v", "Q", "C"]
  else none

/-- The per-model field-name table rebuilt in _write_results_chunk
(lines 198-206). -/
def fieldNamesWrite (fit_method : String) : Option (List String) :=
  if fit_method = "Exponential" then
    some ["Amplitude [pm]", "Time_Constant [s]", "Offset [pm]"]
  else if fit_method = "Double_Exp" then
    some ["Amplitude [pm]", "Time_Constant 1 [s]",
          "Amplitude 2 [pm]", "Time_Constant 2 [s]", "Offset [pm]"]
  else if fit_method = "Str_Exp" then
    some ["Amplitude [pm]", "Beta", "Offset [pm]"]
  else if fit_method = "Logistic" then
    some ["A", "K", "B", "v", "Q", "C"]
  else none

/-- The four fit routines _map_function can invoke. -/
inductive FitModel where
  | exponential
  | doubleExp
  | strExp
  | logistic
deriving DecidableEq

/-- The dispatch of _map_function (lines 181-195): four independent guards
on fit_method each bind popt by invoking one fit routine; if none fires the
final return popt raises NameError. -/
def mapFunction (fit_method : String) : Except PyError FitModel :=
  if fit_method = "Exponential" then .ok .exponential
  else if fit_method = "Double_Exp" then .ok .doubleExp
  else if fit_method = "Str_Exp" then .ok .strExp
  else if fit_method = "Logistic" then .ok .logistic
  else .error .nameError

/-- One stored result row for the double-exponential model, the five
compound fields of the Double_Exp schema in their canonical reading order:
Amplitude, Time_Constant, Amplitude 2, Time_Constant 2, Offset.  Field
values are modelled as rationals. -/
structure DoubleExpRow where
  amp1 : ℚ
  tau1 : ℚ
  amp2 : ℚ
  tau2 : ℚ
  offset : ℚ
deriving DecidableEq

instance : Inhabited DoubleExpRow := ⟨⟨0, 0, 0, 0, 0⟩⟩

/-- The swap performed by the canonicalization pass (lines 224-227): the
amplitude pair and the time-constant pair exchange places, the offset
stays. -/
def swapRow (r : DoubleExpRow) : DoubleExpRow :=
  ⟨r.amp2, r.tau2, r.amp1, r.tau1, r.offset⟩

/-- One iteration of the canonicalization loop (lines 222-227) for one row:
the pre-loop copies of row i equal its live values when iteration i reads
them, since no earlier iteration touches row i, so each row is swapped
independently exactly when its Amplitude exceeds its Amplitude 2. -/
def canonRow (r : DoubleExpRow) : DoubleExpRow :=
  if r.amp1 > r.amp2 then swapRow r else r

/-- The persistent result store: one row per pixel plus the last_pixel
cursor attribute. -/
structure ResultStore where
  rows : List DoubleExpRow
  last_pixel : Nat
deriving DecidableEq

/-- The slice assignment self.h5_results[s:e] = results[s:e] (lines
212-213): rows with index in [s, e) take the corresponding row of the
chunk's converted results, all others keep their value. -/
def writeSlice (rows results : List DoubleExpRow) (s e : Nat) : List DoubleExpRow :=
  (List.range rows.length).map (fun i =>
    if s ≤ i ∧ i < e then results.getD i (rows.getD i default) else rows.getD i default)

/-- _write_results_chunk (lines 197-232) on the store state: write the
chunk's pixel range, run the canonicalization loop over every row when
fit_method is Double_Exp, then set the last_pixel attribute to the chunk
end. -/
def writeResultsChunk (fit_method : String) (st : ResultStore)
    (results : List DoubleExpRow) (s e : Nat) : ResultStore :=
  let rows1 := writeSlice st.rows results s e
  let rows2 := if fit_method = "Double_Exp" then rows1.map canonRow else rows1
  ⟨rows2, e⟩

/-! ## Helper lemmas about the result store commit -/

theorem writeSlice_length (rows results : List DoubleExpRow) (s e : Nat) :
    (writeSlice rows results s e).length = rows.length := by
  simp [writeSlice]

theorem writeSlice_getD (rows results : List DoubleExpRow) (s e i : Nat)
    (hi : i < rows.length) :
    (writeSlice rows results s e).getD i default =
      if s ≤ i ∧ i < e then results.getD i (rows.getD i default)
      else rows.getD i default := by
  unfold writeSlice
  rw [List.getD_eq_getElem _ _ (by simpa using hi)]
  rw [List.getElem_map, List.getElem_range]

theorem map_getD_default (f : DoubleExpRow → DoubleExpRow) (l : List DoubleExpRow)
    (i : Nat) (hi : i < l.length) :
    (l.map f).getD i default = f (l.getD i default) := by
  rw [List.getD_eq_getElem _ _ (by simpa using hi), List.getD_eq_getElem _ _ hi,
    List.getElem_map]

theorem canonRow_le (r : DoubleExpRow) : (canonRow r).amp1 ≤ (canonRow r).amp2 := by
  unfold canonRow swapRow
  split_ifs with h
  · exact le_of_lt h
  · exact le_of_not_lt h

theorem canonRow_eq_of_le (r : DoubleExpRow) (h : r.amp1 ≤ r.amp2) : canonRow r = r := by
  unfold canonRow
  rw [if_neg (not_lt_of_le h)]

theorem canonRow_idem (r : DoubleExpRow) : canonRow (canonRow r) = canonRow r :=
  canonRow_eq_of_le _ (canonRow_le r)

/-! ## Claim theorems: concrete partition scenario, error handling, schema -/

/-- C2: for num_steps = 20, reads_per_cycle = 8, writes_per_cycle = 2,
starts_with = write (so 20 = 2 * (8 + 2) gives 2 cycles), the constructor's
partition is write index sets [[0,1],[10,11]] and read index sets
[[2,...,9],[12,...,19]]. -/
theorem partition_20_8_2_write_scenario :
    mkPartition 20 2 2 (.pstr "write") =
      some ⟨[[2, 3, 4, 5, 6, 7, 8, 9], [12, 13, 14, 15, 16, 17, 18, 19]],
            [[0, 1], [10, 11]]⟩ := by decide

/-- C8 counterexample: with num_steps = 21 not partitionable into 2 cycles
of 8 reads and 2 writes (2 * (8 + 2) = 20 ≠ 21), construction does not
fail with the claimed ConfigurationError — no such error exists in the
code; np.array_split returns ragged blocks of sizes 11 and 10 and
np.setxor1d then raises a plain numpy ValueError on them. -/
theorem partition_uneven_not_configurationError :
    mkPartitionE 21 2 2 (.pstr "write") ≠ .error .configurationError := by decide

/-- C9 counterexample: dispatching an unrecognized model name does not
fail with UnsupportedModelError (no such error exists in the source); the
fall-through raises NameError on the unbound popt instead. -/
theorem mapFunction_unknown_not_unsupportedModelError :
    mapFunction "Gaussian" ≠ .error .unsupportedModelError := by
  simp [mapFunction]

/-- C9 amended: for every model name outside {Exponential, Double_Exp,
Str_Exp, Logistic} the dispatch falls through all four guards and fails
with a NameError on the unbound popt (not an UnsupportedModelError), and
for each name inside the set exactly one model's fit routine is invoked
and its result returned. -/
theorem mapFunction_dispatch (fit_method : String) :
    (fit_method ∉ ["Exponential", "Double_Exp", "Str_Exp", "Logistic"] →
      mapFunction fit_method = .error .nameError) ∧
    mapFunction "Exponential" = .ok .exponential ∧
    mapFunction "Double_Exp" = .ok .doubleExp ∧
    mapFunction "Str_Exp" = .ok .strExp ∧
    mapFunction "Logistic" = .ok .logistic := by
  refine ⟨fun h => ?_, rfl, rfl, rfl, rfl⟩
  simp only [List.mem_cons, List.not_mem_nil, or_false, not_or] at h
  obtain ⟨h1, h2, h3, h4⟩ := h
  simp [mapFunction, h1, h2, h3, h4]

/-- Witness for the C9 amended theorem at the concrete name Gaussian. -/
theorem mapFunction_dispatch_witness :
    mapFunction "Gaussian" = .error .nameError :=
  (mapFunction_dispatch "Gaussian").1 (by decide)

/-- C10: the field-name list rebuilt in _write_results_chunk differs from
the one used by _create_results_datasets for Double_Exp (second field
Time_Constant 1 [s] versus Time_Constant [s]) and agrees for the other
three models; the canonicalization pass itself reads the created name
Time_Constant [s], so the write-side rebuild is the slip. -/
theorem fieldNames_write_vs_create :
    fieldNamesCreate "Double_Exp" ≠ fieldNamesWrite "Double_Exp" ∧
    fieldNamesCreate "Exponential" = fieldNamesWrite "Exponential" ∧
    fieldNamesCreate "Str_Exp" = fieldNamesWrite "Str_Exp" ∧
    fieldNamesCreate "Logistic" = fieldNamesWrite "Logistic" := by
  refine ⟨by decide, by decide, by decide, by decide⟩

/-- C3: for both admissible constructor values of starts_with (the strings
write and read), the write-branch mixed signal of _read_data_chunk is the
empty list whatever the data and step counts are, because the chunk reader
guards the write branch with the integer comparisons starts_with == 1 and
starts_with == 0, which are both false for a string value.  This
contradicts the claim (and the constructor's own docstring, which says
starts_with is 1 or 0 while its default is the string write). -/
theorem mixedWriteSignal_always_empty (num_steps no_write_steps no_read_steps : Nat)
    (amp phase : Nat → ℝ) (sens off : ℝ) :
    mixedWriteSignal (.pstr "write") num_steps no_write_steps no_read_steps
        amp phase sens off = [] ∧
    mixedWriteSignal (.pstr "read") num_steps no_write_steps no_read_steps
        amp phase sens off = [] := by
  constructor <;> rfl


/-! ## Claim theorems: result-store commit -/

theorem writeResultsChunk_DE (st : ResultStore) (results : List DoubleExpRow) (s e : Nat) :
    writeResultsChunk "Double_Exp" st results s e =
      ⟨(writeSlice st.rows results s e).map canonRow, e⟩ := rfl

theorem writeResultsChunk_other (fit_method : String) (hfm : fit_method ≠ "Double_Exp")
    (st : ResultStore) (results : List DoubleExpRow) (s e : Nat) :
    writeResultsChunk fit_method st results s e =
      ⟨writeSlice st.rows results s e, e⟩ := by
  simp [writeResultsChunk, hfm]

/-- C5: after a Double_Exp chunk commit every stored row has its first
amplitude at most its second, and every row of the committed pixel range
whose incoming fit result had Amplitude greater than Amplitude 2 is stored
with the amplitude pair and the time-constant pair swapped together (rows
whose incoming result was already ordered are stored unchanged), so the
stored values are a consistent pairwise permutation of the fit output. -/
theorem doubleExp_commit_canonical (rows results : List DoubleExpRow) (lp s e : Nat) :
    (∀ r ∈ (writeResultsChunk "Double_Exp" ⟨rows, lp⟩ results s e).rows,
      r.amp1 ≤ r.amp2) ∧
    (∀ i, s ≤ i → i < e → i < rows.length → i < results.length →
      (writeResultsChunk "Double_Exp" ⟨rows, lp⟩ results s e).rows.getD i default =
        if (results.getD i default).amp1 > (results.getD i default).amp2
        then swapRow (results.getD i default) else results.getD i default) := by
  rw [writeResultsChunk_DE]
  constructor
  · intro r hr
    obtain ⟨x, _, rfl⟩ := List.mem_map.mp hr
    exact canonRow_le x
  · intro i hs he hrows hres
    rw [map_getD_default _ _ i (by rw [writeSlice_length]; exact hrows)]
    rw [writeSlice_getD _ _ _ _ _ hrows, if_pos ⟨hs, he⟩]
    rw [List.getD_eq_getElem _ _ hres, List.getD_eq_getElem _ _ hres]
    rfl

/-- Witness for C5 at a one-row store whose incoming fit result has
Amplitude 3 greater than Amplitude 2 equal to 2: the stored row is the
swapped pair. -/
theorem doubleExp_commit_canonical_witness :
    (writeResultsChunk "Double_Exp" ⟨[default], 0⟩
        [⟨3, 1, 2, 4, 5⟩] 0 1).rows.getD 0 default = swapRow ⟨3, 1, 2, 4, 5⟩ := by
  have h := (doubleExp_commit_canonical [default] [⟨3, 1, 2, 4, 5⟩] 0 0 1).2 0
    le_rfl (by decide) (by decide) (by decide)
  have e1 : ([(⟨3, 1, 2, 4, 5⟩ : DoubleExpRow)].getD 0 default) = ⟨3, 1, 2, 4, 5⟩ := rfl
  rw [e1] at h
  rw [h, if_pos (show (3 : ℚ) > 2 by norm_num)]

/-- C6: committing the same pixel range twice with identical converted fit
results leaves the store rows and the last_pixel cursor identical to their
values after the first commit, for every fit method. -/
theorem commit_idempotent (fit_method : String) (rows results : List DoubleExpRow)
    (lp s e : Nat) (hlen : results.length = rows.length) :
    writeResultsChunk fit_method (writeResultsChunk fit_method ⟨rows, lp⟩ results s e)
        results s e =
      writeResultsChunk fit_method ⟨rows, lp⟩ results s e := by
  by_cases hfm : fit_method = "Double_Exp"
  · subst hfm
    rw [writeResultsChunk_DE, writeResultsChunk_DE]
    dsimp only
    refine congrArg (fun l => ResultStore.mk l e) ?_
    apply List.ext_getElem
    · simp [writeSlice_length]
    · intro i h1 h2
      have hi : i < rows.length := by simpa [writeSlice_length] using h2
      have hWA : i < (writeSlice rows results s e).length := by
        rw [writeSlice_length]; exact hi
      have hMA : i < ((writeSlice rows results s e).map canonRow).length := by
        simpa using hWA
      have hWB : i < (writeSlice ((writeSlice rows results s e).map canonRow)
          results s e).length := by
        rw [writeSlice_length]; exact hMA
      rw [← List.getD_eq_getElem _ default (by simpa using hWB),
        ← List.getD_eq_getElem _ default (by simpa using hWA)]
      rw [map_getD_default _ _ i hWB, map_getD_default _ _ i hWA]
      rw [writeSlice_getD _ _ _ _ _ hMA, writeSlice_getD _ _ _ _ _ hi]
      by_cases hin : s ≤ i ∧ i < e
      · rw [if_pos hin, if_pos hin]
        have hres : i < results.length := by rw [hlen]; exact hi
        rw [List.getD_eq_getElem _ _ hres, List.getD_eq_getElem _ _ hres]
      · rw [if_neg hin, if_neg hin]
        rw [map_getD_default _ _ i hWA, writeSlice_getD _ _ _ _ _ hi, if_neg hin]
        exact canonRow_idem _
  · rw [writeResultsChunk_other _ hfm, writeResultsChunk_other _ hfm]
    dsimp only
    refine congrArg (fun l => ResultStore.mk l e) ?_
    apply List.ext_getElem
    · simp [writeSlice_length]
    · intro i h1 h2
      have hi : i < rows.length := by simpa [writeSlice_length] using h2
      have hWA : i < (writeSlice rows results s e).length := by
        rw [writeSlice_length]; exact hi
      rw [← List.getD_eq_getElem _ default (by rwa [writeSlice_length]),
        ← List.getD_eq_getElem _ default hWA]
      rw [writeSlice_getD _ _ _ _ _ hWA, writeSlice_getD _ _ _ _ _ hi]
      by_cases hin : s ≤ i ∧ i < e
      · rw [if_pos hin, if_pos hin]
        have hres : i < results.length := by rw [hlen]; exact hi
        rw [List.getD_eq_getElem _ _ hres, List.getD_eq_getElem _ _ hres]
      · rw [if_neg hin]

/-- Witness for C6: a concrete double commit of the same range on a
two-row Double_Exp store equals the single commit. -/
theorem commit_idempotent_witness :
    writeResultsChunk "Double_Exp"
        (writeResultsChunk "Double_Exp" ⟨[⟨3, 1, 2, 4, 5⟩, ⟨0, 1, 2, 3, 4⟩], 0⟩
          [⟨7, 1, 5, 2, 0⟩, ⟨1, 2, 3, 4, 5⟩] 0 1)
        [⟨7, 1, 5, 2, 0⟩, ⟨1, 2, 3, 4, 5⟩] 0 1 =
      writeResultsChunk "Double_Exp" ⟨[⟨3, 1, 2, 4, 5⟩, ⟨0, 1, 2, 3, 4⟩], 0⟩
        [⟨7, 1, 5, 2, 0⟩, ⟨1, 2, 3, 4, 5⟩] 0 1 :=
  commit_idempotent "Double_Exp" [⟨3, 1, 2, 4, 5⟩, ⟨0, 1, 2, 3, 4⟩]
    [⟨7, 1, 5, 2, 0⟩, ⟨1, 2, 3, 4, 5⟩] 0 0 1 rfl

/-- C7 counterexample: a Double_Exp commit of the pixel range [0, 1) also
modifies row 1, which lies outside the range: the canonicalization loop of
_write_results_chunk runs over every row of the store, so the
out-of-range row with Amplitude 3 greater than Amplitude 2 equal to 2 is
swapped in place by the commit. -/
theorem commit_touches_outside_range :
    (writeResultsChunk "Double_Exp" ⟨[⟨1, 1, 2, 2, 0⟩, ⟨3, 1, 2, 4, 5⟩], 0⟩
        [⟨0, 0, 0, 0, 0⟩, ⟨0, 0, 0, 0, 0⟩] 0 1).rows.getD 1 default ≠
      ⟨3, 1, 2, 4, 5⟩ := by decide

/-- C7 amended: a chunk commit leaves every row outside the committed
pixel range unchanged provided that, for the Double_Exp model, the row
already satisfies the amplitude ordering Amplitude at most Amplitude 2;
for every other fit method rows outside the range are unconditionally
unchanged.  (The Double_Exp proviso is forced: the in-place
canonicalization pass sweeps all rows, not only the chunk's.) -/
theorem commit_frame_outside_range (fit_method : String)
    (rows results : List DoubleExpRow) (lp s e i : Nat)
    (hi : i < rows.length) (hout : ¬(s ≤ i ∧ i < e))
    (hcanon : fit_method = "Double_Exp" →
      (rows.getD i default).amp1 ≤ (rows.getD i default).amp2) :
    (writeResultsChunk fit_method ⟨rows, lp⟩ results s e).rows.getD i default =
      rows.getD i default := by
  by_cases hfm : fit_method = "Double_Exp"
  · subst hfm
    rw [writeResultsChunk_DE]
    dsimp only
    rw [map_getD_default _ _ i (by rw [writeSlice_length]; exact hi)]
    rw [writeSlice_getD _ _ _ _ _ hi, if_neg hout]
    exact canonRow_eq_of_le _ (hcanon rfl)
  · rw [writeResultsChunk_other _ hfm]
    dsimp only
    rw [writeSlice_getD _ _ _ _ _ hi, if_neg hout]

/-- Witness for the C7 amended theorem: committing range [0, 1) on a
two-row store whose out-of-range row is already amplitude-ordered leaves
that row unchanged. -/
theorem commit_frame_outside_range_witness :
    (writeResultsChunk "Double_Exp" ⟨[⟨9, 9, 9, 9, 9⟩, ⟨1, 1, 2, 2, 0⟩], 0⟩
        [⟨0, 0, 0, 0, 0⟩, ⟨0, 0, 0, 0, 0⟩] 0 1).rows.getD 1 default =
      ([⟨9, 9, 9, 9, 9⟩, (⟨1, 1, 2, 2, 0⟩ : DoubleExpRow)]).getD 1 default :=
  commit_frame_outside_range "Double_Exp" [⟨9, 9, 9, 9, 9⟩, ⟨1, 1, 2, 2, 0⟩]
    [⟨0, 0, 0, 0, 0⟩, ⟨0, 0, 0, 0, 0⟩] 0 0 1 1 (by decide) (by decide)
    (fun _ => by norm_num)

/-! ## Helper lemmas: closed form of the partition for evenly divisible scans -/

theorem arraySplitSizes_even (C m : Nat) (hC : 0 < C) :
    arraySplitSizes (C * m) C = List.replicate C m := by
  unfold arraySplitSizes
  have h1 : C * m % C = 0 := by
    rw [Nat.mul_comm]; exact Nat.mul_mod_left m C
  have h2 : C * m / C = m := by
    rw [Nat.mul_comm]; exact Nat.mul_div_cancel m hC
  rw [h1, h2]
  simp

theorem blocksFromSizes_replicate (m : Nat) :
    ∀ (C s : Nat), blocksFromSizes s (List.replicate C m) =
      (List.range C).map (fun c => (List.range m).map (· + (s + c * m))) := by
  intro C
  induction C with
  | zero => intro s; rfl
  | succ C ih =>
    intro s
    rw [List.replicate_succ]
    show ((List.range m).map (· + s)) :: blocksFromSizes (s + m) (List.replicate C m) = _
    rw [ih (s + m), List.range_succ_eq_map, List.map_cons, List.map_map]
    congr 1
    · refine List.map_congr_left (fun j _ => by omega)
    · refine List.map_congr_left (fun c _ => ?_)
      refine List.map_congr_left (fun j _ => ?_)
      simp only [Function.comp_apply, Nat.succ_eq_add_one]
      ring_nf

theorem all_inds_split_even (C m : Nat) (hC : 0 < C) :
    all_inds_split (C * m) C =
      (List.range C).map (fun c => (List.range m).map (· + c * m)) := by
  rw [all_inds_split, arraySplitSizes_even C m hC, blocksFromSizes_replicate]
  refine List.map_congr_left (fun c _ => ?_)
  refine List.map_congr_left (fun j _ => by omega)

theorem mem_range_map_add {L b x : Nat} :
    x ∈ (List.range L).map (· + b) ↔ b ≤ x ∧ x < b + L := by
  simp only [List.mem_map, List.mem_range]
  constructor
  · rintro ⟨j, hj, rfl⟩; omega
  · intro h; exact ⟨x - b, by omega, by omega⟩

theorem mem_flatten_map_range {C : Nat} {f : Nat → List Nat} {x : Nat} :
    x ∈ ((List.range C).map f).flatten ↔ ∃ c, c < C ∧ x ∈ f c := by
  simp only [List.mem_flatten, List.mem_map, List.mem_range]
  constructor
  · rintro ⟨l, ⟨c, hc, rfl⟩, hx⟩; exact ⟨c, hc, hx⟩
  · rintro ⟨c, hc, hx⟩; exact ⟨f c, ⟨c, hc, rfl⟩, hx⟩

theorem flatten_blocks (m : Nat) :
    ∀ C : Nat, ((List.range C).map (fun c => (List.range m).map (· + c * m))).flatten =
      List.range (C * m) := by
  intro C
  induction C with
  | zero => simp
  | succ C ih =>
    rw [List.range_succ, List.map_append, List.flatten_append, ih]
    simp only [List.map_cons, List.map_nil, List.flatten_cons, List.flatten_nil,
      List.append_nil]
    rw [Nat.succ_mul, List.range_add]
    congr 1
    refine List.map_congr_left (fun j _ => by omega)

theorem filter_shift (m C : Nat) (q : Nat → Bool) :
    ((List.range m).map (fun x => C * m + x)).filter (fun x => q (x % m)) =
      ((List.range m).filter q).map (· + C * m) := by
  rw [List.filter_map]
  have hq : ∀ j ∈ List.range m,
      ((fun x => q (x % m)) ∘ (fun x => C * m + x)) j = q j := by
    intro j hj
    have hjm : j < m := List.mem_range.mp hj
    simp only [Function.comp_apply]
    rw [Nat.mul_comm C m, Nat.mul_add_mod, Nat.mod_eq_of_lt hjm]
  rw [List.filter_congr hq]
  refine List.map_congr_left (fun j _ => by omega)

theorem filter_range_mod (m : Nat) (q : Nat → Bool) :
    ∀ C : Nat, (List.range (C * m)).filter (fun x => q (x % m)) =
      ((List.range C).map (fun c => ((List.range m).filter q).map (· + c * m))).flatten := by
  intro C
  induction C with
  | zero => simp
  | succ C ih =>
    rw [Nat.succ_mul, List.range_add, List.filter_append, ih, filter_shift]
    rw [List.range_succ, List.map_append, List.flatten_append]
    simp

theorem pairwise_lt_flatten_shifted (m : Nat) (inner : List Nat)
    (hin : inner.Pairwise (· < ·)) (hbd : ∀ j ∈ inner, j < m) (C : Nat) :
    ((List.range C).map (fun c => inner.map (· + c * m))).flatten.Pairwise (· < ·) := by
  rw [List.pairwise_flatten]
  constructor
  · rintro l hl
    obtain ⟨c, _, rfl⟩ := List.mem_map.mp hl
    rw [List.pairwise_map]
    exact hin.imp (fun h => by omega)
  · rw [List.pairwise_map]
    refine (List.pairwise_lt_range C).imp ?_
    intro c1 c2 hc x hx y hy
    obtain ⟨j1, hj1, rfl⟩ := List.mem_map.mp hx
    obtain ⟨j2, hj2, rfl⟩ := List.mem_map.mp hy
    have hb1 : j1 < m := hbd j1 hj1
    have hkey : c1 * m + m ≤ c2 * m := by
      calc c1 * m + m = (c1 + 1) * m := by ring
        _ ≤ c2 * m := Nat.mul_le_mul_right m (by omega)
    omega

theorem npSplitGo_flatten (k : Nat) :
    ∀ (ls : List (List Nat)), (∀ l ∈ ls, l.length = k) →
      npSplitGo ls.length k ls.flatten = ls := by
  intro ls
  induction ls with
  | nil => intro _; rfl
  | cons l rest ih =>
    intro h
    have hl : l.length = k := h l (by simp)
    rw [List.length_cons, List.flatten_cons]
    show (l ++ rest.flatten).take k :: npSplitGo rest.length k ((l ++ rest.flatten).drop k) = _
    rw [List.take_left' hl, List.drop_left' hl, ih (fun x hx => h x (by simp [hx]))]

theorem length_flatten_blocks (C k : Nat) (f : Nat → List Nat)
    (hf : ∀ c, (f c).length = k) :
    ((List.range C).map f).flatten.length = C * k := by
  rw [List.length_flatten, List.map_map]
  have h : List.map (List.length ∘ f) (List.range C) = List.replicate C k := by
    rw [show (List.length ∘ f) = fun _ => k from funext (fun c => hf c), List.map_const']
    simp
  rw [h, List.sum_replicate, smul_eq_mul]

theorem mkPartitionE_write_reads (n C W : Nat) (hC : ¬ C = 0) :
    mkPartitionE n C W (.pstr "write") =
      match npAsArray (all_inds_split n C),
          npAsArray ((all_inds_split n C).map (List.drop W)) with
      | some fa, some fb =>
        match npSplit (setxor1d fa fb) C with
        | none => .error .valueError
        | some ws => .ok ⟨(all_inds_split n C).map (List.drop W), ws⟩
      | _, _ => .error .valueError := by
  unfold mkPartitionE
  rw [if_neg hC]
  rfl

theorem mkPartitionE_read_reads (n C W : Nat) (hC : ¬ C = 0) :
    mkPartitionE n C W (.pstr "read") =
      match npAsArray (all_inds_split n C),
          npAsArray ((all_inds_split n C).map (fun b => pyNegSlice b W)) with
      | some fa, some fb =>
        match npSplit (setxor1d fa fb) C with
        | none => .error .valueError
        | some ws => .ok ⟨(all_inds_split n C).map (fun b => pyNegSlice b W), ws⟩
      | _, _ => .error .valueError := by
  unfold mkPartitionE
  rw [if_neg hC]
  rfl

theorem npAsArray_of_uniform (ls : List (List Nat)) (k : Nat)
    (h : ∀ l ∈ ls, l.length = k) : npAsArray ls = some ls.flatten := by
  unfold npAsArray
  have hcond : ∀ l ∈ ls, l.length = (ls.headD []).length := by
    intro l hl
    cases ls with
    | nil => cases hl
    | cons l0 rest =>
      have h0 : l0.length = k := h l0 (by simp)
      rw [h l hl]
      simpa using h0.symm
  rw [if_pos hcond]

theorem setxor1d_subset_sorted (a b : List Nat) (hsub : ∀ x ∈ b, x ∈ a)
    (hnd : a.Nodup) (hsort : a.Pairwise (· ≤ ·)) :
    setxor1d a b = a.filter (fun x => decide (x ∉ b)) := by
  unfold setxor1d
  have h2 : b.filter (fun x => decide (x ∉ a)) = [] := by
    rw [List.filter_eq_nil_iff]
    intro x hx
    simpa using hsub x hx
  rw [h2, List.append_nil, List.Nodup.dedup (hnd.filter _)]
  exact List.Sorted.insertionSort_eq (List.Pairwise.filter _ hsort)

theorem mem_shifted_blocks_iff (C m a L x : Nat) (haL : a + L ≤ m) (hm : 0 < m) :
    x ∈ ((List.range C).map (fun c => (List.range L).map (· + (c * m + a)))).flatten ↔
      x < C * m ∧ a ≤ x % m ∧ x % m < a + L := by
  rw [mem_flatten_map_range]
  constructor
  · rintro ⟨c, hc, hx⟩
    obtain ⟨j, hj, rfl⟩ := List.mem_map.mp hx
    have hjL : j < L := List.mem_range.mp hj
    have e2 : j + (c * m + a) = m * c + (a + j) := by ring
    have hmod : (j + (c * m + a)) % m = a + j := by
      rw [e2, Nat.mul_add_mod, Nat.mod_eq_of_lt (by omega)]
    refine ⟨?_, by omega, by omega⟩
    calc j + (c * m + a) = m * c + (a + j) := e2
      _ < m * c + m := by omega
      _ = m * (c + 1) := by ring
      _ ≤ m * C := Nat.mul_le_mul_left m (by omega)
      _ = C * m := Nat.mul_comm m C
  · rintro ⟨h1, h2, h3⟩
    refine ⟨x / m, (Nat.div_lt_iff_lt_mul hm).mpr h1, ?_⟩
    rw [List.mem_map]
    refine ⟨x % m - a, List.mem_range.mpr (by omega), ?_⟩
    have hmd : x % m + x / m * m = x := Nat.mod_add_div' x m
    generalize hu : x % m = u at h2 h3 hmd ⊢
    generalize hv : x / m * m = v at hmd ⊢
    omega

theorem filter_range_lt (m W : Nat) (h : W ≤ m) :
    (List.range m).filter (fun j => decide (j < W)) = List.range W := by
  have hsplit : List.range m = List.range W ++ (List.range (m - W)).map (fun x => W + x) := by
    rw [← List.range_add]
    congr 1
    omega
  rw [hsplit, List.filter_append]
  have hfst : (List.range W).filter (fun j => decide (j < W)) = List.range W := by
    rw [List.filter_eq_self]
    intro j hj
    simpa using List.mem_range.mp hj
  have hsnd : ((List.range (m - W)).map (fun x => W + x)).filter
      (fun j => decide (j < W)) = [] := by
    rw [List.filter_eq_nil_iff]
    rintro j hj
    obtain ⟨x, _, rfl⟩ := List.mem_map.mp hj
    simp
  rw [hfst, hsnd, List.append_nil]

theorem filter_range_ge (m R : Nat) (h : R ≤ m) :
    (List.range m).filter (fun j => decide (R ≤ j)) =
      (List.range (m - R)).map (fun x => R + x) := by
  have hsplit : List.range m = List.range R ++ (List.range (m - R)).map (fun x => R + x) := by
    rw [← List.range_add]
    congr 1
    omega
  rw [hsplit, List.filter_append]
  have hfst : (List.range R).filter (fun j => decide (R ≤ j)) = [] := by
    rw [List.filter_eq_nil_iff]
    intro j hj
    simpa using List.mem_range.mp hj
  have hsnd : ((List.range (m - R)).map (fun x => R + x)).filter
      (fun j => decide (R ≤ j)) = (List.range (m - R)).map (fun x => R + x) := by
    rw [List.filter_eq_self]
    rintro j hj
    obtain ⟨x, _, rfl⟩ := List.mem_map.mp hj
    simp
  rw [hfst, hsnd, List.nil_append]

theorem npSplit_flatten_blocks (C k : Nat) (hC : 0 < C) (f : Nat → List Nat)
    (hf : ∀ c, (f c).length = k) :
    npSplit ((List.range C).map f).flatten C = some ((List.range C).map f) := by
  have hlen : ((List.range C).map f).flatten.length = C * k :=
    length_flatten_blocks C k f hf
  have hCmap : ((List.range C).map f).length = C := by simp
  have h2 := npSplitGo_flatten k ((List.range C).map f)
    (by rintro l hl; obtain ⟨c, _, rfl⟩ := List.mem_map.mp hl; exact hf c)
  rw [hCmap] at h2
  unfold npSplit
  rw [if_pos ⟨hC, by rw [hlen, Nat.mul_comm]; exact Nat.mul_mod_left k C⟩]
  rw [hlen, Nat.mul_comm, Nat.mul_div_cancel k hC, h2]

theorem reads_write_closed (C R W : Nat) :
    ((List.range C).map (fun c => (List.range (R + W)).map (· + c * (R + W)))).map
        (List.drop W) =
      (List.range C).map (fun c => (List.range R).map (· + (c * (R + W) + W))) := by
  rw [List.map_map]
  refine List.map_congr_left (fun c _ => ?_)
  show List.drop W ((List.range (R + W)).map (· + c * (R + W))) = _
  rw [← List.map_drop]
  have hsplit : List.range (R + W) = List.range W ++ (List.range R).map (fun x => W + x) := by
    rw [← List.range_add]
    congr 1
    omega
  rw [hsplit, List.drop_left' (by simp), List.map_map]
  refine List.map_congr_left (fun j _ => ?_)
  simp only [Function.comp_apply]
  ring

theorem xor_write_closed (C R W : Nat) (hC : 0 < C) :
    setxor1d (List.range (C * (R + W)))
        (((List.range C).map (fun c => (List.range R).map (· + (c * (R + W) + W)))).flatten) =
      ((List.range C).map (fun c => (List.range W).map (· + c * (R + W)))).flatten := by
  by_cases hm : R + W = 0
  · obtain ⟨hR, hW⟩ : R = 0 ∧ W = 0 := by omega
    subst hR; subst hW
    simp [setxor1d]
  · have hm' : 0 < R + W := by omega
    rw [setxor1d_subset_sorted _ _
      (fun x hx => List.mem_range.mpr
        ((mem_shifted_blocks_iff C (R + W) W R x (by omega) hm').mp hx).1)
      (List.nodup_range _) (List.sorted_le_range _)]
    have hcong : ∀ x ∈ List.range (C * (R + W)),
        (fun x => decide (x ∉ ((List.range C).map
          (fun c => (List.range R).map (· + (c * (R + W) + W)))).flatten)) x =
        (fun j => decide (j < W)) (x % (R + W)) := by
      intro x hx
      have hxn : x < C * (R + W) := List.mem_range.mp hx
      have hmod : x % (R + W) < R + W := Nat.mod_lt x hm'
      rw [decide_eq_decide]
      rw [mem_shifted_blocks_iff C (R + W) W R x (by omega) hm']
      generalize x % (R + W) = r at hmod ⊢
      constructor
      · intro h; omega
      · intro h hcontra; omega
    rw [List.filter_congr hcong]
    calc (List.range (C * (R + W))).filter (fun x => (fun j => decide (j < W)) (x % (R + W)))
        = ((List.range C).map (fun c =>
            ((List.range (R + W)).filter (fun j => decide (j < W))).map
              (· + c * (R + W)))).flatten :=
          filter_range_mod (R + W) (fun j => decide (j < W)) C
      _ = ((List.range C).map (fun c => (List.range W).map (· + c * (R + W)))).flatten := by
          refine congrArg List.flatten (List.map_congr_left (fun c _ => ?_))
          rw [filter_range_lt (R + W) W (by omega)]

theorem mkPartitionE_even_write (C R W : Nat) (hC : 0 < C) :
    mkPartitionE (C * (R + W)) C W (.pstr "write") =
      .ok ⟨(List.range C).map (fun c => (List.range R).map (· + (c * (R + W) + W))),
           (List.range C).map (fun c => (List.range W).map (· + c * (R + W)))⟩ := by
  rw [mkPartitionE_write_reads _ _ _ (by omega)]
  rw [all_inds_split_even C (R + W) hC, reads_write_closed]
  rw [npAsArray_of_uniform _ (R + W)
      (by rintro l hl; obtain ⟨c, _, rfl⟩ := List.mem_map.mp hl; simp),
    npAsArray_of_uniform _ R
      (by rintro l hl; obtain ⟨c, _, rfl⟩ := List.mem_map.mp hl; simp)]
  show (match npSplit (setxor1d
      ((List.range C).map (fun c => (List.range (R + W)).map (· + c * (R + W)))).flatten
      ((List.range C).map (fun c =>
        (List.range R).map (· + (c * (R + W) + W)))).flatten) C with
    | none => (.error .valueError : Except PyError CycleIndexPartition)
    | some ws => .ok ⟨(List.range C).map (fun c =>
        (List.range R).map (· + (c * (R + W) + W))), ws⟩) = _
  rw [flatten_blocks (R + W) C, xor_write_closed C R W hC,
    npSplit_flatten_blocks C W hC (fun c => (List.range W).map (· + c * (R + W)))
      (fun c => by simp)]

theorem mkPartition_even_write (C R W : Nat) (hC : 0 < C) :
    mkPartition (C * (R + W)) C W (.pstr "write") =
      some ⟨(List.range C).map (fun c => (List.range R).map (· + (c * (R + W) + W))),
            (List.range C).map (fun c => (List.range W).map (· + c * (R + W)))⟩ := by
  unfold mkPartition
  rw [mkPartitionE_even_write C R W hC]
  rfl

theorem reads_read_closed (C R W : Nat) (hW : 0 < W) :
    ((List.range C).map (fun c => (List.range (R + W)).map (· + c * (R + W)))).map
        (fun b => pyNegSlice b W) =
      (List.range C).map (fun c => (List.range R).map (· + c * (R + W))) := by
  rw [List.map_map]
  refine List.map_congr_left (fun c _ => ?_)
  show pyNegSlice ((List.range (R + W)).map (· + c * (R + W))) W = _
  unfold pyNegSlice
  rw [if_neg (by omega), List.length_map, List.length_range, ← List.map_take,
    List.take_range]
  have h1 : R + W - W = R := by omega
  rw [h1, inf_eq_left.mpr (by omega)]

theorem xor_read_closed (C R W : Nat) (hC : 0 < C) :
    setxor1d (List.range (C * (R + W)))
        (((List.range C).map (fun c => (List.range R).map (· + c * (R + W)))).flatten) =
      ((List.range C).map (fun c => (List.range W).map (· + (c * (R + W) + R)))).flatten := by
  by_cases hm : R + W = 0
  · obtain ⟨hR, hW⟩ : R = 0 ∧ W = 0 := by omega
    subst hR; subst hW
    simp [setxor1d]
  · have hm' : 0 < R + W := by omega
    have hshape : (List.range C).map (fun c => (List.range R).map (· + c * (R + W))) =
        (List.range C).map (fun c => (List.range R).map (· + (c * (R + W) + 0))) := by
      refine List.map_congr_left (fun c _ => ?_)
      refine List.map_congr_left (fun j _ => by omega)
    rw [hshape]
    rw [setxor1d_subset_sorted _ _
      (fun x hx => List.mem_range.mpr
        ((mem_shifted_blocks_iff C (R + W) 0 R x (by omega) hm').mp hx).1)
      (List.nodup_range _) (List.sorted_le_range _)]
    have hcong : ∀ x ∈ List.range (C * (R + W)),
        (fun x => decide (x ∉ ((List.range C).map
          (fun c => (List.range R).map (· + (c * (R + W) + 0)))).flatten)) x =
        (fun j => decide (R ≤ j)) (x % (R + W)) := by
      intro x hx
      have hxn : x < C * (R + W) := List.mem_range.mp hx
      have hmod : x % (R + W) < R + W := Nat.mod_lt x hm'
      rw [decide_eq_decide]
      rw [mem_shifted_blocks_iff C (R + W) 0 R x (by omega) hm']
      generalize x % (R + W) = r at hmod ⊢
      constructor
      · intro h; omega
      · intro h hcontra; omega
    rw [List.filter_congr hcong]
    calc (List.range (C * (R + W))).filter (fun x => (fun j => decide (R ≤ j)) (x % (R + W)))
        = ((List.range C).map (fun c =>
            ((List.range (R + W)).filter (fun j => decide (R ≤ j))).map
              (· + c * (R + W)))).flatten :=
          filter_range_mod (R + W) (fun j => decide (R ≤ j)) C
      _ = ((List.range C).map (fun c =>
            (List.range W).map (· + (c * (R + W) + R)))).flatten := by
          refine congrArg List.flatten (List.map_congr_left (fun c _ => ?_))
          rw [filter_range_ge (R + W) R (by omega),
            show R + W - R = W from by omega, List.map_map]
          refine List.map_congr_left (fun j _ => ?_)
          simp only [Function.comp_apply]
          ring

theorem mkPartitionE_even_read (C R W : Nat) (hC : 0 < C) (hW : 0 < W) :
    mkPartitionE (C * (R + W)) C W (.pstr "read") =
      .ok ⟨(List.range C).map (fun c => (List.range R).map (· + c * (R + W))),
           (List.range C).map (fun c => (List.range W).map (· + (c * (R + W) + R)))⟩ := by
  rw [mkPartitionE_read_reads _ _ _ (by omega)]
  rw [all_inds_split_even C (R + W) hC, reads_read_closed C R W hW]
  rw [npAsArray_of_uniform _ (R + W)
      (by rintro l hl; obtain ⟨c, _, rfl⟩ := List.mem_map.mp hl; simp),
    npAsArray_of_uniform _ R
      (by rintro l hl; obtain ⟨c, _, rfl⟩ := List.mem_map.mp hl; simp)]
  show (match npSplit (setxor1d
      ((List.range C).map (fun c => (List.range (R + W)).map (· + c * (R + W)))).flatten
      ((List.range C).map (fun c =>
        (List.range R).map (· + c * (R + W)))).flatten) C with
    | none => (.error .valueError : Except PyError CycleIndexPartition)
    | some ws => .ok ⟨(List.range C).map (fun c =>
        (List.range R).map (· + c * (R + W))), ws⟩) = _
  rw [flatten_blocks (R + W) C, xor_read_closed C R W hC,
    npSplit_flatten_blocks C W hC (fun c => (List.range W).map (· + (c * (R + W) + R)))
      (fun c => by simp)]

theorem mkPartition_even_read (C R W : Nat) (hC : 0 < C) (hW : 0 < W) :
    mkPartition (C * (R + W)) C W (.pstr "read") =
      some ⟨(List.range C).map (fun c => (List.range R).map (· + c * (R + W))),
            (List.range C).map (fun c => (List.range W).map (· + (c * (R + W) + R)))⟩ := by
  unfold mkPartition
  rw [mkPartitionE_even_read C R W hC hW]
  rfl

theorem union_write_case (a R W x : Nat) :
    ((a + W ≤ x ∧ x < a + W + R) ∨ (a ≤ x ∧ x < a + W)) ↔
      (a ≤ x ∧ x < a + (R + W)) := by omega

theorem union_read_case (a R W x : Nat) :
    ((a ≤ x ∧ x < a + R) ∨ (a + R ≤ x ∧ x < a + R + W)) ↔
      (a ≤ x ∧ x < a + (R + W)) := by omega

theorem interval_bound (a b m x : Nat) (hcb : a + m ≤ b) (hx : x < a + m) : x < b := by
  omega

theorem getD_map_range (f : Nat → List Nat) (C c : Nat) (hc : c < C) :
    ((List.range C).map f).getD c [] = f c := by
  rw [List.getD_eq_getElem _ _ (by simpa using hc), List.getElem_map, List.getElem_range]

/-- C1 (amended): for every valid scan metadata with num_steps equal to
the cycle count times reads_per_cycle + writes_per_cycle, a positive cycle
count, and starts_with one of the two admissible string values — with
writes_per_cycle at least 1 when starts_with is read, because the Python
slice [:-0] empties every read set in that branch — the constructed
partition has C read sets and C write sets, and for each cycle the read
and write sets are disjoint, their union is exactly that cycle's
contiguous step block, they lie inside [0, num_steps), and their sizes are
exactly reads_per_cycle and writes_per_cycle. -/
theorem partition_read_write_correct (C R W : Nat) (sw : PyVal) (hC : 0 < C)
    (hsw : sw = .pstr "write" ∨ sw = .pstr "read")
    (hW : sw = .pstr "read" → 0 < W) :
    ∃ p, mkPartition (C * (R + W)) C W sw = some p ∧
      p.read_inds_split.length = C ∧
      p.write_inds_split.length = C ∧
      ∀ c, c < C →
        (p.read_inds_split.getD c []).length = R ∧
        (p.write_inds_split.getD c []).length = W ∧
        (∀ x ∈ p.read_inds_split.getD c [], x ∉ p.write_inds_split.getD c []) ∧
        (∀ x, (x ∈ p.read_inds_split.getD c [] ∨ x ∈ p.write_inds_split.getD c []) ↔
          (c * (R + W) ≤ x ∧ x < (c + 1) * (R + W))) ∧
        (∀ x ∈ p.read_inds_split.getD c [], x < C * (R + W)) ∧
        (∀ x ∈ p.write_inds_split.getD c [], x < C * (R + W)) := by
  rcases hsw with rfl | rfl
  · refine ⟨_, mkPartition_even_write C R W hC, by simp, by simp, ?_⟩
    intro c hc
    dsimp only
    rw [getD_map_range _ C c hc, getD_map_range _ C c hc]
    have hcb : (c + 1) * (R + W) ≤ C * (R + W) := Nat.mul_le_mul_right _ (by omega)
    rw [Nat.succ_mul] at hcb
    refine ⟨by simp, by simp, ?_, ?_, ?_, ?_⟩
    · intro x hx hx'
      rw [mem_range_map_add] at hx hx'
      omega
    · intro x
      rw [mem_range_map_add, mem_range_map_add, Nat.succ_mul]
      exact union_write_case (c * (R + W)) R W x
    · intro x hx
      rw [mem_range_map_add] at hx
      refine interval_bound (c * (R + W)) (C * (R + W)) (R + W) x hcb ?_
      have h2 := hx.2
      omega
    · intro x hx
      rw [mem_range_map_add] at hx
      refine interval_bound (c * (R + W)) (C * (R + W)) (R + W) x hcb ?_
      have h2 := hx.2
      omega
  · have hW' : 0 < W := hW rfl
    refine ⟨_, mkPartition_even_read C R W hC hW', by simp, by simp, ?_⟩
    intro c hc
    dsimp only
    rw [getD_map_range _ C c hc, getD_map_range _ C c hc]
    have hcb : (c + 1) * (R + W) ≤ C * (R + W) := Nat.mul_le_mul_right _ (by omega)
    rw [Nat.succ_mul] at hcb
    refine ⟨by simp, by simp, ?_, ?_, ?_, ?_⟩
    · intro x hx hx'
      rw [mem_range_map_add] at hx hx'
      omega
    · intro x
      rw [mem_range_map_add, mem_range_map_add, Nat.succ_mul]
      exact union_read_case (c * (R + W)) R W x
    · intro x hx
      rw [mem_range_map_add] at hx
      refine interval_bound (c * (R + W)) (C * (R + W)) (R + W) x hcb ?_
      have h2 := hx.2
      omega
    · intro x hx
      rw [mem_range_map_add] at hx
      refine interval_bound (c * (R + W)) (C * (R + W)) (R + W) x hcb ?_
      have h2 := hx.2
      omega

/-- C1 counterexample: the valid metadata num_steps = 5, reads_per_cycle
= 5, writes_per_cycle = 0, one cycle, starts_with = read (5 = 1 * (5 + 0))
demands a read set of size 5 and a write set of size 0, but the Python
slice [:-0] empties the read set, so the code produces sizes (0, 5)
instead of the claimed (5, 0). -/
theorem partition_read_zero_write_counterexample :
    ((mkPartition 5 1 0 (.pstr "read")).map
        (fun p => ((p.read_inds_split.getD 0 []).length,
          (p.write_inds_split.getD 0 []).length)) = some (0, 5)) ∧
    ((mkPartition 5 1 0 (.pstr "read")).map
        (fun p => ((p.read_inds_split.getD 0 []).length,
          (p.write_inds_split.getD 0 []).length)) ≠ some (5, 0)) := by decide

/-- Witness for the C1 amended theorem at the concrete metadata
num_steps = 20, reads_per_cycle = 8, writes_per_cycle = 2, two cycles,
starts_with = write. -/
theorem partition_read_write_correct_witness :
    ∃ p, mkPartition (2 * (8 + 2)) 2 2 (.pstr "write") = some p ∧
      p.read_inds_split.length = 2 ∧
      p.write_inds_split.length = 2 ∧
      ∀ c, c < 2 →
        (p.read_inds_split.getD c []).length = 8 ∧
        (p.write_inds_split.getD c []).length = 2 ∧
        (∀ x ∈ p.read_inds_split.getD c [], x ∉ p.write_inds_split.getD c []) ∧
        (∀ x, (x ∈ p.read_inds_split.getD c [] ∨ x ∈ p.write_inds_split.getD c []) ↔
          (c * (8 + 2) ≤ x ∧ x < (c + 1) * (8 + 2))) ∧
        (∀ x ∈ p.read_inds_split.getD c [], x < 2 * (8 + 2)) ∧
        (∀ x ∈ p.write_inds_split.getD c [], x < 2 * (8 + 2)) :=
  partition_read_write_correct 2 8 2 (.pstr "write") (by decide)
    (Or.inl rfl) (fun _ => by decide)

/-! ## Claim theorems: signal reconstruction -/

/-- C4: for a pixel whose raw amplitude is identically 1 and raw phase is
identically 0, every entry of the reconstructed read-branch signal, at
every read index of every cycle of the constructed partition, equals
sensitivity times cos(phase_offset). -/
theorem read_signal_constant (num_steps C W : Nat) (sw : PyVal)
    (p : CycleIndexPartition) (hp : mkPartition num_steps C W sw = some p)
    (amp phase : Nat → ℝ) (sens off : ℝ)
    (hamp : ∀ k, amp k = 1) (hph : ∀ k, phase k = 0) :
    ∀ inds ∈ p.read_inds_split, ∀ x ∈ mixedReadSignal amp phase inds sens off,
      x = sens * Real.cos off := by
  intro inds _ x hx
  obtain ⟨k, _, rfl⟩ := List.mem_map.mp hx
  rw [hamp k, hph k, one_mul, zero_add]

/-- Witness for C4 at the C2 scenario partition with sensitivity 2 and
phase offset 0: every entry of the first cycle's read signal equals
2 times cos 0. -/
theorem read_signal_constant_witness :
    (1 : ℝ) * 2 * Real.cos (0 + 0) = 2 * Real.cos 0 :=
  read_signal_constant 20 2 2 (.pstr "write")
    ⟨[[2, 3, 4, 5, 6, 7, 8, 9], [12, 13, 14, 15, 16, 17, 18, 19]], [[0, 1], [10, 11]]⟩
    (by decide) (fun _ => 1) (fun _ => 0) 2 0 (fun _ => rfl) (fun _ => rfl)
    [2, 3, 4, 5, 6, 7, 8, 9] (by decide)
    ((1 : ℝ) * 2 * Real.cos (0 + 0))
    (List.mem_map.mpr ⟨2, by decide, rfl⟩)

/-! ## Uneven scans: ragged blocks make np.setxor1d raise -/

theorem blocksFromSizes_lengths :
    ∀ (sizes : List Nat) (s : Nat),
      (blocksFromSizes s sizes).map List.length = sizes := by
  intro sizes
  induction sizes with
  | nil => intro s; rfl
  | cons sz rest ih =>
    intro s
    show (((List.range sz).map (· + s)).length :: _) = _
    rw [List.length_map, List.length_range, ih (s + sz)]

theorem npAsArray_blocks_uneven (n C : Nat) (hC : 0 < C) (hne : n % C ≠ 0) :
    npAsArray (all_inds_split n C) = none := by
  have hmlt : n % C < C := Nat.mod_lt n hC
  have hlens : (all_inds_split n C).map List.length = arraySplitSizes n C :=
    blocksFromSizes_lengths (arraySplitSizes n C) 0
  have hblen : (all_inds_split n C).length = C := by
    have := congrArg List.length hlens
    simpa [arraySplitSizes] using this
  have hget : ∀ i (hi : i < C),
      ((all_inds_split n C).getD i []).length =
        if i < n % C then n / C + 1 else n / C := by
    intro i hi
    have hi' : i < (all_inds_split n C).length := by rwa [hblen]
    rw [List.getD_eq_getElem _ _ hi']
    have h1 : (all_inds_split n C)[i].length =
        ((all_inds_split n C).map List.length).getD i 0 := by
      rw [List.getD_eq_getElem _ _ (by simpa using hi'), List.getElem_map]
    rw [h1, hlens]
    unfold arraySplitSizes
    rw [List.getD_eq_getElem _ _ (by simpa using hi), List.getElem_map,
      List.getElem_range]
  have hhead : (all_inds_split n C).headD [] = (all_inds_split n C).getD 0 [] := by
    cases h : all_inds_split n C with
    | nil => rfl
    | cons a l => rfl
  unfold npAsArray
  rw [if_neg]
  intro hcond
  have hmem : (all_inds_split n C).getD (n % C) [] ∈ all_inds_split n C := by
    rw [List.getD_eq_getElem _ _ (by rwa [hblen])]
    exact List.getElem_mem _
  have h2 := hcond _ hmem
  rw [hhead, hget (n % C) hmlt, hget 0 hC] at h2
  rw [if_neg (by omega), if_pos (by omega)] at h2
  exact absurd h2.symm (Nat.succ_ne_self (n / C))

/-- C8 amended: if num_steps is not evenly partitionable into the cycle
count consistent with reads_per_cycle + writes_per_cycle, pipeline
construction does fail before any result data is written — but with an
unvalidated numpy ValueError, not the claimed ConfigurationError (which
exists nowhere in the code): np.array_split returns ragged blocks and
np.setxor1d's array conversion raises on them, for either admissible
starts_with value. -/
theorem partition_uneven_raises (n C W : Nat) (sw : PyVal) (hC : 0 < C)
    (hne : n % C ≠ 0) (hsw : sw = .pstr "write" ∨ sw = .pstr "read") :
    mkPartitionE n C W sw = .error .valueError := by
  have hnone := npAsArray_blocks_uneven n C hC hne
  rcases hsw with rfl | rfl
  · rw [mkPartitionE_write_reads _ _ _ (by omega), hnone]
  · rw [mkPartitionE_read_reads _ _ _ (by omega), hnone]

/-- Witness for the C8 amended theorem at num_steps = 21, two cycles,
writes_per_cycle = 2, starts_with = write. -/
theorem partition_uneven_raises_witness :
    mkPartitionE 21 2 2 (.pstr "write") = .error .valueError :=
  partition_uneven_raises 21 2 2 (.pstr "write") (by decide) (by decide) (Or.inl rfl)
